import Mathlib

/-!
Verification of the reconciliation / report-model core of the
`aws-cost-report-generator` repository (files `aws-cost-report.py`,
`projectwise.py`, `total_costs_report.py`).

The Python code is shallowly embedded:
* monetary amounts are rationals (`ℚ`); Python's `round(x, 2)` is modelled
  exactly on rationals as round-half-to-even at two decimal places
  (`round2` below), which is Python's documented rounding rule on the
  mathematical value of the argument;
* Python dicts are association lists with insertion order and
  last-write-wins update (`setK` / `getK`);
* Python strings are Lean `String`s, with the operations used by the code
  (`split('$')`, `startswith`, `lower()`, slicing, `strip()` truthiness)
  defined character-wise on `String.data`, mirroring Python's code-point
  semantics;
* pandas DataFrames are lists of typed rows; the pandas behaviours the
  code relies on are modelled where they matter: `pd.merge(..., how='left')`
  keeps only left-side keys and fills the right side with NaN (modelled as
  `Option.none`), and `pd.DataFrame([])` has no columns, so summing a named
  column of it raises `KeyError` (modelled as `Except.error`).
-/

namespace AwsReport

/-- Round-half-to-even of a rational to an integer: the rounding mode of
Python's builtin `round`.  `⌊q⌋` when the fractional part is below 1/2,
`⌊q⌋ + 1` above 1/2, and the even neighbour at exactly 1/2. -/
def rhe (q : ℚ) : ℤ :=
  if q - ⌊q⌋ < 1/2 then ⌊q⌋
  else if 1/2 < q - ⌊q⌋ then ⌊q⌋ + 1
  else if ⌊q⌋ % 2 = 0 then ⌊q⌋ else ⌊q⌋ + 1

/-- Embedding of Python's `round(x, 2)` on exact rational values. -/
def round2 (q : ℚ) : ℚ := (rhe (q * 100) : ℚ) / 100

/-! ### Python string operations, character-wise on `String.data` -/

/-- Embedding of Python's `str.lower()` (ASCII-relevant part), applied
character-wise. -/
def pyLower (s : String) : String := ⟨s.data.map Char.toLower⟩

/-- Embedding of Python's `str.startswith(pre)`. -/
def pyStarts (s pre : String) : Bool := pre.data.isPrefixOf s.data

/-- Embedding of Python's `s[:n]` slicing (by code point, as in Python). -/
def pyTake (s : String) (n : ℕ) : String := ⟨s.data.take n⟩

/-- Truthiness of Python's `s.strip()`: `false` iff the string is empty or
consists solely of whitespace. -/
def pyBlank (s : String) : Bool := s.data.all (·.isWhitespace)

/-- Embedding of Python's `s.split('$')` on the character list: splits at
every occurrence of `'$'`, keeping empty segments (Python semantics for a
one-character separator). -/
def splitD : List Char → List (List Char)
  | [] => [[]]
  | c :: cs =>
    if c = '$' then [] :: splitD cs
    else
      match splitD cs with
      | [] => [[c]]
      | p :: ps => (c :: p) :: ps

/-- `s.split('$')` at the `String` level. -/
def pySplit (s : String) : List String := (splitD s.data).map String.mk

/-! ### Key Normalizer (from `aws-cost-report.py` lines 46-49 / 173-179,
`projectwise.py` lines 59-61, `total_costs_report.py` line 59) -/

/-- `next((tag.split('$')[1] for tag in keys if tag.startswith('Project$')),
'No Project Tag')`. The index `[1]` is total because a matching tag
contains `'$'`, so its split has at least two fields. -/
def project_tag (keys : List String) : String :=
  match keys.find? (fun t => pyStarts t "Project$") with
  | some t => (pySplit t).getD 1 ""
  | none => "No Project Tag"

/-- `next((svc for svc in keys if not svc.startswith('Project$')),
'No Service')`. -/
def service_of (keys : List String) : String :=
  (keys.find? (fun t => !(pyStarts t "Project$"))).getD "No Service"

/-- `item['Keys'][0].split('$')[1] if item['Keys'][0].startswith('Project$')
else 'No Project Tag'` (the `TotalCostsReport.process_data` normalizer,
which looks only at the first key component). -/
def projectOfKey0 (keys : List String) : String :=
  let k0 := keys.getD 0 ""
  if pyStarts k0 "Project$" then (pySplit k0).getD 1 "" else "No Project Tag"

/-! ### Python dicts as insertion-ordered association lists -/

/-- `d[k] = v`: replace in place if the key exists, else append (Python dict
insertion-order semantics). -/
def setK {α : Type} : List (String × α) → String → α → List (String × α)
  | [], k, v => [(k, v)]
  | (k', v') :: rest, k, v =>
    if k' = k then (k, v) :: rest else (k', v') :: setK rest k v

/-- `d.get(k)`. -/
def getK {α : Type} (m : List (String × α)) (k : String) : Option α :=
  (m.find? (fun p => p.1 = k)).map (·.2)

/-- Two-level lookup `project_costs.get(p, {}).get(s)` used to observe the
nested dict. -/
def getK2 {α : Type} (pc : List (String × List (String × α))) (p s : String) :
    Option α :=
  match getK pc p with
  | some m => getK m s
  | none => none

/-! ### Raw records and the ProjectServiceReport pipeline
(`aws-cost-report.py` lines 44-96, `projectwise.py` lines 56-123) -/

/-- One billing-API group: the ordered key components and the (already
numeric) `UnblendedCost` amount. -/
structure CostItem where
  keys : List String
  amount : ℚ
deriving DecidableEq

/-- The per-(project, service) inner dict: `'Current Cost'` / `'Previous
Cost'` entries, each possibly absent. -/
structure Cell where
  currentCost : Option ℚ
  previousCost : Option ℚ
deriving DecidableEq

/-- Body of the current-month loop (`aws-cost-report.py` lines 46-53):
ensures the project dict exists, then assigns
`project_costs[p][s] = {'Current Cost': amount}` (replacing any existing
cell for that service). -/
def insertCurrent (pc : List (String × List (String × Cell)))
    (item : CostItem) : List (String × List (String × Cell)) :=
  let p := project_tag item.keys
  let s := service_of item.keys
  let m := (getK pc p).getD []
  setK pc p (setK m s ⟨some item.amount, none⟩)

/-- Body of the previous-month loop (`aws-cost-report.py` lines 55-64):
ensures project and service dicts exist, then assigns
`project_costs[p][s]['Previous Cost'] = amount`, keeping any existing
`'Current Cost'` entry. -/
def insertPrev (pc : List (String × List (String × Cell)))
    (item : CostItem) : List (String × List (String × Cell)) :=
  let p := project_tag item.keys
  let s := service_of item.keys
  let m := (getK pc p).getD []
  let c := (getK m s).getD ⟨none, none⟩
  setK pc p (setK m s ⟨c.currentCost, some item.amount⟩)

/-- `ProjectServiceReport.process_data`. -/
def processData (cur prev : List CostItem) :
    List (String × List (String × Cell)) :=
  prev.foldl insertPrev (cur.foldl insertCurrent [])

/-- One row of a per-project sheet: service label and the three rounded
monetary columns. -/
structure Row where
  label : String
  current : ℚ
  previous : ℚ
  difference : ℚ
deriving DecidableEq

/-- Row construction from `generate_excel` lines 75-84: zero-fill the
absent side, subtract at full precision, round each emitted column. -/
def mkRow (svc : String) (c : Cell) : Row :=
  let cur := c.currentCost.getD 0
  let prv := c.previousCost.getD 0
  ⟨svc, round2 cur, round2 prv, round2 (cur - prv)⟩

/-- Comparator of `df.sort_values(by='Current Cost (USD)',
ascending=False)`: descending by the rounded current cost. -/
def rowGE (a b : Row) : Bool := decide (b.current ≤ a.current)

/-- A per-project table: sorted data rows plus the totals row that
`pd.concat` appends last. -/
structure Sheet where
  dataRows : List Row
  totalsRow : Row
deriving DecidableEq

/-- Table construction of `generate_excel` lines 74-96 (identically
`projectwise.py` lines 97-123): build rows, sort descending by current
cost, then total each *already rounded* column and append a `'Total'`
row. -/
def projectSheet (services : List (String × Cell)) : Sheet :=
  let rows := services.map (fun p => mkRow p.1 p.2)
  let sorted := rows.mergeSort rowGE
  let totCur := (sorted.map (·.current)).sum
  let totPrev := (sorted.map (·.previous)).sum
  ⟨sorted, ⟨"Total", round2 totCur, round2 totPrev, round2 (totCur - totPrev)⟩⟩

/-- `pd.concat([df, total_row])`: the full written table, totals last. -/
def sheetTable (sh : Sheet) : List Row := sh.dataRows ++ [sh.totalsRow]

/-! ### Sheet-name generation (`aws-cost-report.py` lines 142-150,
`projectwise.py` lines 27-37) -/

def digitChar (n : ℕ) : Char :=
  match n with
  | 0 => '0' | 1 => '1' | 2 => '2' | 3 => '3' | 4 => '4'
  | 5 => '5' | 6 => '6' | 7 => '7' | 8 => '8' | _ => '9'

/-- Decimal rendering of a counter, as Python's f-string interpolation
renders an `int`. -/
def natChars (n : ℕ) : List Char :=
  if _h : n < 10 then [digitChar n]
  else natChars (n / 10) ++ [digitChar (n % 10)]
decreasing_by exact Nat.div_lt_self (by omega) (by omega)

/-- `f"{base_name}_{counter}"`. -/
def candName (base : String) (c : ℕ) : String := ⟨base.data ++ '_' :: natChars c⟩

/-- `sheet_name.lower() in [name.lower() for name in used_names]`. -/
def isTaken (nm : String) (used : List String) : Bool :=
  (used.map pyLower).contains (pyLower nm)

/-- The `while` loop of `get_unique_sheet_name`, with explicit fuel.  The
loop always terminates within `used.length + 1` candidate names (proved in
`findFree_found` below), so the fuelled version with that fuel is an exact
embedding of the unbounded loop. -/
def findFree (base : String) (used : List String) : ℕ → ℕ → String
  | 0, c => candName base c
  | fuel + 1, c =>
    if isTaken (candName base c) used then findFree base used fuel (c + 1)
    else candName base c

/-- `base_name = project[:28] if project.strip() else 'Unnamed_Project'`. -/
def baseNameOf (project : String) : String :=
  if pyBlank project then "Unnamed_Project" else pyTake project 28

/-- `get_unique_sheet_name(project, used_names)`: base name is the
28-character truncation, or `'Unnamed_Project'` for a blank project; numeric
suffixes `_1`, `_2`, … are tried until the name is case-insensitively
unused. -/
def get_unique_sheet_name (project : String) (used : List String) : String :=
  let base := baseNameOf project
  if isTaken base used then findFree base used (used.length + 1) 1 else base

/-- The sheet-building loop of `generate_excel` lines 70-73: assign each
project group a unique sheet name, accumulating the used-name set. -/
def buildSheets (pc : List (String × List (String × Cell)))
    (used : List String) : List (String × Sheet) :=
  match pc with
  | [] => []
  | (p, svcs) :: rest =>
    let nm := get_unique_sheet_name p used
    (nm, projectSheet svcs) :: buildSheets rest (nm :: used)

/-! ### The TotalCostsReport pipeline (`aws-cost-report.py` lines 173-202) -/

/-- One row of the total-costs table.  `secondCost` is the column
`"Cost of {second_month...}"` (the more recent month, shown first),
`firstCost` the column `"Cost of {first_month...}"` (the earlier month);
`difference = round(first_cost - second_cost, 2)` as in line 190. -/
structure TcRow where
  project : String
  secondCost : ℚ
  firstCost : ℚ
  difference : ℚ
deriving DecidableEq

/-- The dict comprehensions of lines 174-179: project-keyed amounts,
later records overwriting earlier ones with the same normalized key. -/
def costsDict (data : List CostItem) : List (String × ℚ) :=
  data.foldl (fun m it => setK m (projectOfKey0 it.keys) it.amount) []

/-- `set(first_month_costs.keys()).union(second_month_costs.keys())`.
Python set iteration order is unspecified (string hashing is randomized
per process); this canonical list fixes it as first-occurrence order, and
the order-sensitive theorems below quantify over all permutations. -/
def unionKeys (f s : List (String × ℚ)) : List String :=
  (f.map Prod.fst ++ s.map Prod.fst).dedup

structure TcTable where
  rows : List TcRow
  totals : TcRow
deriving DecidableEq

/-- Row construction of lines 183-191: zero-fill via `.get(project, 0)`,
round each emitted column, difference from the full-precision values. -/
def mkTcRow (f s : List (String × ℚ)) (p : String) : TcRow :=
  let fc := (getK f p).getD 0
  let sc := (getK s p).getD 0
  ⟨p, round2 sc, round2 fc, round2 (fc - sc)⟩

/-- `TotalCostsReport.process_data` with the set-iteration order of
`all_projects` made explicit.  For empty input, `pd.DataFrame([])` has no
columns, so the column sums on lines 193-194 raise `KeyError`; this is
modelled as `Except.error`.  Otherwise the totals row sums the already
rounded columns and is concatenated last. -/
def totalProcessDataOrd (order : List String) (a b : List CostItem) :
    Except String TcTable :=
  let rows := order.map (mkTcRow (costsDict a) (costsDict b))
  if rows.isEmpty then
    .error "KeyError: empty DataFrame has no cost columns"
  else
    let totF := (rows.map (·.firstCost)).sum
    let totS := (rows.map (·.secondCost)).sum
    .ok ⟨rows, ⟨"Total", round2 totS, round2 totF, round2 (totF - totS)⟩⟩

/-- `TotalCostsReport.process_data` at the canonical key order. -/
def totalProcessData (a b : List CostItem) : Except String TcTable :=
  totalProcessDataOrd (unionKeys (costsDict a) (costsDict b)) a b

/-- The written table: data rows with the totals row concatenated last. -/
def tcTableRows (t : TcTable) : List TcRow := t.rows ++ [t.totals]

/-! ### The standalone script `total_costs_report.py` (lines 57-105) -/

/-- `fetch_cost_data`'s post-processing (lines 57-63): one output row per
record, project normalized by the tag scan, amount rounded at fetch
time. -/
def fetchReportData (data : List CostItem) : List (String × ℚ) :=
  data.map (fun it => (project_tag it.keys, round2 it.amount))

/-- One row of `merged_df`.  `firstAmt` is `'Cost (USD)_x'` (from
`first_df`); `secondAmt` is `'Cost (USD)_y'` (from `second_df`), `none`
modelling the NaN that `pd.merge(..., how='left')` fills in for an
unmatched left row; `difference` is the `_y - _x` column of line 89, `none`
modelling NaN propagation. -/
structure MRow where
  project : String
  firstAmt : ℚ
  secondAmt : Option ℚ
  difference : Option ℚ
deriving DecidableEq

/-- `pd.merge(first_df, second_df, on='Project', how='left')` followed by
the difference column of line 89: every left row is kept (duplicated once
per matching right row); right-side values of unmatched left rows are NaN;
keys present only in `second_df` produce no row. -/
def mergedRows (firstR secondR : List (String × ℚ)) : List MRow :=
  firstR.flatMap (fun r =>
    match secondR.filter (fun m => decide (m.1 = r.1)) with
    | [] => [⟨r.1, r.2, none, none⟩]
    | ms => ms.map (fun m => ⟨r.1, r.2, some m.2, some (m.2 - r.2)⟩))

/-! ### Amount parsing (`float(item['Metrics']['UnblendedCost']['Amount'])`,
`aws-cost-report.py` lines 50/59/176/179, `total_costs_report.py` line 60) -/

def digitsVal (l : List Char) : ℕ := l.foldl (fun a c => 10 * a + (c.toNat - 48)) 0

def expTail (m : ℚ) (sgn : ℤ) (l : List Char) : Option ℚ :=
  if !l.isEmpty && l.all (·.isDigit) then
    some (m * (10 : ℚ) ^ (sgn * (digitsVal l : ℤ)))
  else none

def expPart (m : ℚ) : List Char → Option ℚ
  | '+' :: r => expTail m 1 r
  | '-' :: r => expTail m (-1) r
  | r => expTail m 1 r

/-- Embedding of Python's `float(s)` on finite decimal literals: optional
surrounding whitespace, optional sign, digits with optional fractional part
(at least one digit overall), optional exponent.  Returns `none` — Python
raises `ValueError` — for anything else.  (IEEE specials `inf`/`nan` and
digit underscores are outside the billing-data domain and omitted.) -/
def pyFloat? (s : String) : Option ℚ :=
  let l := ((s.data.dropWhile (·.isWhitespace)).reverse.dropWhile
    (·.isWhitespace)).reverse
  let sl : ℚ × List Char :=
    match l with
    | '+' :: r => (1, r)
    | '-' :: r => (-1, r)
    | r => (1, r)
  let sgn := sl.1
  let l1 := sl.2
  let ip := l1.takeWhile (·.isDigit)
  let r1 := l1.dropWhile (·.isDigit)
  match r1 with
  | [] => if ip.isEmpty then none else some (sgn * digitsVal ip)
  | '.' :: r2 =>
    let fp := r2.takeWhile (·.isDigit)
    let r3 := r2.dropWhile (·.isDigit)
    if ip.isEmpty && fp.isEmpty then none
    else
      let mant : ℚ := sgn * ((digitsVal ip : ℚ) + (digitsVal fp : ℚ) / (10 : ℚ) ^ fp.length)
      match r3 with
      | [] => some mant
      | e :: r4 => if e = 'e' ∨ e = 'E' then expPart mant r4 else none
  | e :: r4 =>
    if (e = 'e' ∨ e = 'E') && !ip.isEmpty then expPart (sgn * digitsVal ip) r4
    else none

/-- A raw billing record as delivered by the API: the amount is still a
string. -/
structure RawItem where
  keys : List String
  amountStr : String
deriving DecidableEq

/-- `float(...)` applied to one record: `ValueError` aborts the run. -/
def parseItem (it : RawItem) : Except String CostItem :=
  match pyFloat? it.amountStr with
  | some q => .ok ⟨it.keys, q⟩
  | none => .error ("ValueError: could not convert string to float: " ++ it.amountStr)

/-- `ProjectServiceReport.process_data` on raw records: each loop converts
the amount with `float(...)`, so the first malformed amount raises and the
whole run fails; otherwise reconciliation proceeds on the parsed values. -/
def processDataChecked (cur prev : List RawItem) :
    Except String (List (String × List (String × Cell))) := do
  let c ← cur.mapM parseItem
  let p ← prev.mapM parseItem
  pure (processData c p)

/-! ### Library lemmas about the embedding -/

theorem rhe_intCast (n : ℤ) : rhe (n : ℚ) = n := by
  simp [rhe]

theorem rhe_of_lt_half (q : ℚ) (n : ℤ) (h₁ : (n : ℚ) ≤ q) (h₂ : q - n < 1/2) :
    rhe q = n := by
  have hf : ⌊q⌋ = n := Int.floor_eq_iff.mpr ⟨h₁, by linarith⟩
  rw [rhe, hf, if_pos (by linarith)]

theorem rhe_of_gt_half (q : ℚ) (n : ℤ) (h₁ : 1/2 < q - n) (h₂ : q < (n : ℚ) + 1) :
    rhe q = n + 1 := by
  have hf : ⌊q⌋ = n := Int.floor_eq_iff.mpr ⟨by linarith, by linarith⟩
  rw [rhe, hf, if_neg (by linarith), if_pos (by linarith)]

theorem round2_eq_lo (q : ℚ) (n : ℤ) (h₁ : (n : ℚ) ≤ 100 * q)
    (h₂ : 100 * q - n < 1/2) : round2 q = (n : ℚ) / 100 := by
  rw [round2, rhe_of_lt_half (q * 100) n (by linarith) (by linarith)]

theorem round2_eq_hi (q : ℚ) (n : ℤ) (h₁ : 1/2 < 100 * q - n)
    (h₂ : 100 * q < (n : ℚ) + 1) : round2 q = ((n : ℚ) + 1) / 100 := by
  rw [round2, rhe_of_gt_half (q * 100) n (by linarith) (by linarith)]
  push_cast
  ring

/-- Values that are an exact number of cents are fixed points of `round2`. -/
theorem round2_cents (n : ℤ) : round2 ((n : ℚ) / 100) = (n : ℚ) / 100 := by
  rw [round2, show ((n : ℚ) / 100 * 100) = (n : ℚ) by ring, rhe_intCast]

theorem rhe_neg (q : ℚ) : rhe (-q) = -(rhe q) := by
  rcases eq_or_lt_of_le (Int.fract_nonneg q) with h0 | hpos
  · -- q is an integer
    have hq : q = (⌊q⌋ : ℚ) := by
      rw [Int.fract] at h0
      linarith [h0.symm]
    rw [hq, ← Int.cast_neg, rhe_intCast, rhe_intCast]
  · -- q has positive fractional part r ∈ (0, 1)
    have hfl : (⌊q⌋ : ℚ) ≤ q := Int.floor_le q
    have hr1 : q - ⌊q⌋ < 1 := by
      have := Int.lt_floor_add_one q
      push_cast at this ⊢
      linarith
    have hrpos : (0 : ℚ) < q - ⌊q⌋ := by
      rw [Int.fract] at hpos
      exact hpos
    have hfloorneg : ⌊-q⌋ = -⌊q⌋ - 1 := by
      apply Int.floor_eq_iff.mpr
      constructor
      · push_cast
        linarith
      · push_cast
        linarith
    rcases lt_trichotomy (q - ⌊q⌋) (1/2) with hlt | heq | hgt
    · -- r < 1/2 : rhe q = ⌊q⌋ ; -q has fractional part 1 - r > 1/2
      have h1 : rhe q = ⌊q⌋ := by
        rw [rhe, if_pos (by linarith)]
      have h2 : rhe (-q) = (-⌊q⌋ - 1) + 1 := by
        rw [rhe, hfloorneg, if_neg (by push_cast; linarith),
          if_pos (by push_cast; linarith)]
      rw [h1, h2]
      ring
    · -- r = 1/2 : parity case
      have h1 : rhe q = if ⌊q⌋ % 2 = 0 then ⌊q⌋ else ⌊q⌋ + 1 := by
        rw [rhe, if_neg (by linarith), if_neg (by linarith)]
      have h2 : rhe (-q) =
          if (-⌊q⌋ - 1) % 2 = 0 then -⌊q⌋ - 1 else (-⌊q⌋ - 1) + 1 := by
        rw [rhe, hfloorneg, if_neg (by push_cast; linarith),
          if_neg (by push_cast; linarith)]
      rw [h1, h2]
      by_cases hpar : ⌊q⌋ % 2 = 0
      · rw [if_pos hpar, if_neg (by omega)]
        ring
      · rw [if_neg hpar, if_pos (by omega)]
        ring
    · -- r > 1/2 : rhe q = ⌊q⌋ + 1 ; -q has fractional part 1 - r < 1/2
      have h1 : rhe q = ⌊q⌋ + 1 := by
        rw [rhe, if_neg (by linarith), if_pos (by linarith)]
      have h2 : rhe (-q) = -⌊q⌋ - 1 := by
        rw [rhe, hfloorneg, if_pos (by push_cast; linarith)]
      rw [h1, h2]
      ring

theorem round2_neg (q : ℚ) : round2 (-q) = -(round2 q) := by
  rw [round2, round2, show (-q * 100) = -(q * 100) by ring, rhe_neg]
  push_cast
  ring

theorem round2_zero : round2 0 = 0 := by
  simpa using round2_cents 0

/-- Every `round2` result is an exact number of cents. -/
theorem round2_is_cents (q : ℚ) : ∃ n : ℤ, round2 q = (n : ℚ) / 100 :=
  ⟨rhe (q * 100), rfl⟩

theorem sum_cents (l : List ℚ) (h : ∀ x ∈ l, ∃ n : ℤ, x = (n : ℚ) / 100) :
    ∃ m : ℤ, l.sum = (m : ℚ) / 100 := by
  induction l with
  | nil => exact ⟨0, by simp⟩
  | cons a t ih =>
    obtain ⟨n, hn⟩ := h a (List.mem_cons_self a t)
    obtain ⟨m, hm⟩ := ih (fun x hx => h x (List.mem_cons_of_mem a hx))
    refine ⟨n + m, ?_⟩
    rw [List.sum_cons, hn, hm]
    push_cast
    ring

/-- `round2` fixes any sum of `round2` values. -/
theorem round2_sum_of_round2 (l : List ℚ) :
    round2 ((l.map round2).sum) = (l.map round2).sum := by
  obtain ⟨m, hm⟩ := sum_cents (l.map round2) (by
    intro x hx
    obtain ⟨q, _, rfl⟩ := List.mem_map.mp hx
    exact round2_is_cents q)
  rw [hm, round2_cents]

theorem getK_setK_self {α : Type} (m : List (String × α)) (k : String) (v : α) :
    getK (setK m k v) k = some v := by
  induction m with
  | nil => simp [setK, getK]
  | cons p rest ih =>
    simp only [setK]
    by_cases h : p.1 = k
    · rw [if_pos h]
      simp [getK, List.find?_cons]
    · rw [if_neg h]
      simp only [getK, List.find?_cons, decide_eq_false h]
      exact ih

theorem getK_setK_ne {α : Type} (m : List (String × α)) (k k' : String) (v : α)
    (h : k' ≠ k) : getK (setK m k v) k' = getK m k' := by
  have hd : (decide (k = k')) = false := decide_eq_false (fun hh => h hh.symm)
  induction m with
  | nil => simp [setK, getK, List.find?_cons, hd]
  | cons p rest ih =>
    simp only [setK]
    by_cases hp : p.1 = k
    · rw [if_pos hp]
      have hd2 : (decide (p.1 = k')) = false := by
        rw [hp]
        exact hd
      simp only [getK, List.find?_cons, hd, hd2]
    · rw [if_neg hp]
      simp only [getK, List.find?_cons]
      by_cases hp' : p.1 = k'
      · simp only [decide_eq_true hp']
      · simp only [decide_eq_false hp']
        exact ih

/-- Key membership after `setK`. -/
theorem mem_keys_setK {α : Type} (m : List (String × α)) (k k' : String) (v : α) :
    k' ∈ (setK m k v).map Prod.fst ↔ k' = k ∨ k' ∈ m.map Prod.fst := by
  induction m with
  | nil => simp [setK]
  | cons p rest ih =>
    by_cases hp : p.1 = k
    · simp [setK, hp]
    · simp only [setK, if_neg hp, List.map_cons, List.mem_cons, ih]
      tauto

/-- Lookup after a dict-building fold: the last written value wins,
falling back to the initial dict. -/
theorem getK_foldl_set {α β : Type} (key : α → String) (val : α → β)
    (l : List α) (m : List (String × β)) (k : String) :
    getK (l.foldl (fun d it => setK d (key it) (val it)) m) k =
      match l.reverse.find? (fun it => decide (key it = k)) with
      | some it => some (val it)
      | none => getK m k := by
  induction l generalizing m with
  | nil => simp
  | cons a t ih =>
    rw [List.foldl_cons, ih, List.reverse_cons, List.find?_append]
    cases hf : t.reverse.find? (fun it => decide (key it = k)) with
    | some it => rfl
    | none =>
      simp only [Option.none_or]
      by_cases hk : key a = k
      · subst hk
        simp [List.find?_cons, getK_setK_self]
      · rw [getK_setK_ne m (key a) k (val a) (fun h => hk h.symm)]
        simp [List.find?_cons, hk]

/-- Key set of a dict-building fold. -/
theorem mem_keys_foldl_set {α β : Type} (key : α → String) (val : α → β)
    (l : List α) (m : List (String × β)) (k : String) :
    k ∈ (l.foldl (fun d it => setK d (key it) (val it)) m).map Prod.fst ↔
      (∃ it ∈ l, key it = k) ∨ k ∈ m.map Prod.fst := by
  induction l generalizing m with
  | nil => simp
  | cons a t ih =>
    rw [List.foldl_cons, ih, mem_keys_setK]
    simp only [List.mem_cons]
    constructor
    · rintro (⟨it, hit, rfl⟩ | hk | hm)
      · exact Or.inl ⟨it, Or.inr hit, rfl⟩
      · exact Or.inl ⟨a, Or.inl rfl, hk.symm⟩
      · exact Or.inr hm
    · rintro (⟨it, hit | hit, rfl⟩ | hm)
      · exact Or.inr (Or.inl (by rw [hit]))
      · exact Or.inl ⟨it, hit, rfl⟩
      · exact Or.inr (Or.inr hm)

/-- The two-level lookup through the `.get(p, {})` default. -/
theorem getK2_eq {α : Type} (pc : List (String × List (String × α)))
    (p s : String) : getK2 pc p s = getK ((getK pc p).getD []) s := by
  cases h : getK pc p with
  | some m =>
    unfold getK2
    rw [h]
    rfl
  | none =>
    unfold getK2
    rw [h]
    simp [getK]

/-- Effect of one current-month loop iteration on the nested lookup. -/
theorem getK2_insertCurrent (pc : List (String × List (String × Cell)))
    (item : CostItem) (p s : String) :
    getK2 (insertCurrent pc item) p s =
      if project_tag item.keys = p ∧ service_of item.keys = s then
        some ⟨some item.amount, none⟩
      else getK2 pc p s := by
  simp only [insertCurrent, getK2_eq]
  by_cases hp : project_tag item.keys = p
  · subst hp
    rw [getK_setK_self, Option.getD_some]
    by_cases hs : service_of item.keys = s
    · subst hs
      rw [getK_setK_self, if_pos ⟨rfl, rfl⟩]
    · rw [getK_setK_ne _ _ _ _ (fun h => hs h.symm), if_neg (by tauto)]
  · rw [getK_setK_ne _ _ _ _ (fun h => hp h.symm), if_neg (by tauto)]

/-- Effect of one previous-month loop iteration on the nested lookup: the
previous-cost entry is (over)written, the current-cost entry is kept. -/
theorem getK2_insertPrev (pc : List (String × List (String × Cell)))
    (item : CostItem) (p s : String) :
    getK2 (insertPrev pc item) p s =
      if project_tag item.keys = p ∧ service_of item.keys = s then
        some ⟨((getK2 pc p s).getD ⟨none, none⟩).currentCost, some item.amount⟩
      else getK2 pc p s := by
  simp only [insertPrev, getK2_eq]
  by_cases hp : project_tag item.keys = p
  · subst hp
    rw [getK_setK_self, Option.getD_some]
    by_cases hs : service_of item.keys = s
    · subst hs
      rw [getK_setK_self, if_pos ⟨rfl, rfl⟩]
    · rw [getK_setK_ne _ _ _ _ (fun h => hs h.symm), if_neg (by tauto)]
  · rw [getK_setK_ne _ _ _ _ (fun h => hp h.symm), if_neg (by tauto)]

/-- Nested lookup after the whole current-month loop: last write wins. -/
theorem getK2_foldl_insertCurrent (l : List CostItem)
    (pc : List (String × List (String × Cell))) (p s : String) :
    getK2 (l.foldl insertCurrent pc) p s =
      match l.reverse.find?
        (fun it => decide (project_tag it.keys = p ∧ service_of it.keys = s)) with
      | some it => some ⟨some it.amount, none⟩
      | none => getK2 pc p s := by
  induction l generalizing pc with
  | nil => simp
  | cons a t ih =>
    rw [List.foldl_cons, ih, List.reverse_cons, List.find?_append, getK2_insertCurrent]
    by_cases hk : project_tag a.keys = p ∧ service_of a.keys = s
    · have hfa : List.find?
          (fun it => decide (project_tag it.keys = p ∧ service_of it.keys = s)) [a]
          = some a := by simp [List.find?_cons, hk]
      rw [if_pos hk, hfa]
      cases hf : t.reverse.find?
          (fun it => decide (project_tag it.keys = p ∧ service_of it.keys = s)) with
      | some it => rfl
      | none => rfl
    · have hfa : List.find?
          (fun it => decide (project_tag it.keys = p ∧ service_of it.keys = s)) [a]
          = none := by simp [List.find?_cons, hk]
      rw [if_neg hk, hfa]
      cases hf : t.reverse.find?
          (fun it => decide (project_tag it.keys = p ∧ service_of it.keys = s)) with
      | some it => rfl
      | none => rfl

/-- Nested lookup after the whole previous-month loop: the last matching
record's amount lands in `previousCost`; `currentCost` is whatever the
initial dict had (the loop never writes it). -/
theorem getK2_foldl_insertPrev (l : List CostItem)
    (pc : List (String × List (String × Cell))) (p s : String) :
    getK2 (l.foldl insertPrev pc) p s =
      match l.reverse.find?
        (fun it => decide (project_tag it.keys = p ∧ service_of it.keys = s)) with
      | some it =>
        some ⟨((getK2 pc p s).getD ⟨none, none⟩).currentCost, some it.amount⟩
      | none => getK2 pc p s := by
  induction l generalizing pc with
  | nil => simp
  | cons a t ih =>
    rw [List.foldl_cons, ih, List.reverse_cons, List.find?_append, getK2_insertPrev]
    by_cases hk : project_tag a.keys = p ∧ service_of a.keys = s
    · have hfa : List.find?
          (fun it => decide (project_tag it.keys = p ∧ service_of it.keys = s)) [a]
          = some a := by simp [List.find?_cons, hk]
      rw [if_pos hk, hfa]
      cases hf : t.reverse.find?
          (fun it => decide (project_tag it.keys = p ∧ service_of it.keys = s)) with
      | some it => rfl
      | none => rfl
    · have hfa : List.find?
          (fun it => decide (project_tag it.keys = p ∧ service_of it.keys = s)) [a]
          = none := by simp [List.find?_cons, hk]
      rw [if_neg hk, hfa]
      cases hf : t.reverse.find?
          (fun it => decide (project_tag it.keys = p ∧ service_of it.keys = s)) with
      | some it => rfl
      | none => rfl

theorem round2_intCast (n : ℤ) : round2 ((n : ℚ)) = (n : ℚ) := by
  rw [round2, show ((n : ℚ) * 100) = ((n * 100 : ℤ) : ℚ) by push_cast; ring,
    rhe_intCast]
  push_cast
  ring

theorem round2_one : round2 (1 : ℚ) = 1 := by
  simpa using round2_intCast 1

theorem round2_five : round2 (5 : ℚ) = 5 := by
  have := round2_intCast 5
  push_cast at this
  simpa using this

theorem mkTcRow_project (f s : List (String × ℚ)) (p : String) :
    (mkTcRow f s p).project = p := rfl

theorem length_filter_eq_one (l : List String) (k : String) (h : l.Nodup)
    (hk : k ∈ l) : (l.filter (fun x => decide (x = k))).length = 1 := by
  induction l with
  | nil => cases hk
  | cons a t ih =>
    rw [List.filter_cons]
    rcases List.mem_cons.mp hk with rfl | hkt
    · rw [if_pos (by simp)]
      have hnil : t.filter (fun x => decide (x = k)) = [] := by
        rw [List.filter_eq_nil_iff]
        intro x hx
        simp only [decide_eq_true_eq]
        intro hxa
        exact (List.nodup_cons.mp h).1 (hxa ▸ hx)
      simp [hnil]
    · have ha : ¬(a = k) := by
        intro h'
        exact (List.nodup_cons.mp h).1 (h' ▸ hkt)
      rw [if_neg (by simpa using ha)]
      exact ih (List.nodup_cons.mp h).2 hkt

/-- The dict comprehension of `TotalCostsReport.process_data`: lookup is
the amount of the last record normalizing to the key. -/
theorem costsDict_lookup (data : List CostItem) (k : String) :
    getK (costsDict data) k =
      (data.reverse.find?
        (fun it => decide (projectOfKey0 it.keys = k))).map (·.amount) := by
  unfold costsDict
  rw [getK_foldl_set (fun it => projectOfKey0 it.keys) (fun it => it.amount)
    data [] k]
  cases data.reverse.find? (fun it => decide (projectOfKey0 it.keys = k)) with
  | some it => rfl
  | none => rfl

/-- C10: if several records of one period normalize to the same EntityKey,
the reconciled value for that key is the amount of the *last* such record in
input order — earlier amounts are discarded, not summed, and no error is
raised.  First conjunct: the project-keyed dicts of
`TotalCostsReport.process_data` (lines 174-179).  Second conjunct: the
current-month loop of `ProjectServiceReport.process_data` (lines 46-53),
observed through the nested (project, service) lookup. -/
theorem claim_C10_last_write_wins :
    (∀ (data : List CostItem) (k : String),
      getK (costsDict data) k =
        (data.reverse.find?
          (fun it => decide (projectOfKey0 it.keys = k))).map (·.amount)) ∧
    (∀ (cur : List CostItem) (p s : String),
      getK2 (processData cur []) p s =
        (cur.reverse.find?
          (fun it => decide (project_tag it.keys = p ∧ service_of it.keys = s))).map
          (fun it => ⟨some it.amount, none⟩)) := by
  constructor
  · exact costsDict_lookup
  · intro cur p s
    unfold processData
    rw [List.foldl_nil, getK2_foldl_insertCurrent]
    cases cur.reverse.find?
        (fun it => decide (project_tag it.keys = p ∧ service_of it.keys = s)) with
    | some it => rfl
    | none => rfl

/-- C5: with zero records in both periods, `TotalCostsReport.process_data`
does not produce a zero-row report — `pd.DataFrame([])` has no columns, so
the column sums of lines 193-194 raise `KeyError` and the run crashes. -/
theorem claim_C5_empty_input_crash :
    totalProcessData [] [] =
      .error "KeyError: empty DataFrame has no cost columns" := rfl

/-- C1 (amended): in `TotalCostsReport.process_data`, for every EntityKey
appearing in either period's raw records, the output contains exactly one
row for that key, for any iteration order of the key-set union.  (The
standalone `total_costs_report.py` merge violates the original claim, see
the counterexample: its left join drops keys present only in the second
dataset.) -/
theorem claim_C1_completeness_amended (a b : List CostItem)
    (order : List String)
    (hperm : order.Perm (unionKeys (costsDict a) (costsDict b))) (k : String)
    (hk : (∃ it ∈ a, projectOfKey0 it.keys = k) ∨
      (∃ it ∈ b, projectOfKey0 it.keys = k)) :
    ∃ t, totalProcessDataOrd order a b = .ok t ∧
      (t.rows.filter (fun r => decide (r.project = k))).length = 1 := by
  have hmemU : k ∈ unionKeys (costsDict a) (costsDict b) := by
    unfold unionKeys costsDict
    rw [List.mem_dedup, List.mem_append]
    rcases hk with ⟨it, hit, hkk⟩ | ⟨it, hit, hkk⟩
    · exact Or.inl ((mem_keys_foldl_set (fun it => projectOfKey0 it.keys)
        (fun it => it.amount) a [] k).mpr (Or.inl ⟨it, hit, hkk⟩))
    · exact Or.inr ((mem_keys_foldl_set (fun it => projectOfKey0 it.keys)
        (fun it => it.amount) b [] k).mpr (Or.inl ⟨it, hit, hkk⟩))
  have hmemO : k ∈ order := hperm.mem_iff.mpr hmemU
  have hne : (order.map (mkTcRow (costsDict a) (costsDict b))).isEmpty = false := by
    cases order with
    | nil => cases hmemO
    | cons x t => rfl
  simp only [totalProcessDataOrd]
  rw [if_neg (by simp [hne])]
  refine ⟨_, rfl, ?_⟩
  rw [List.filter_map, List.length_map]
  have hpred : ((fun r : TcRow => decide (r.project = k)) ∘
      mkTcRow (costsDict a) (costsDict b)) = (fun x => decide (x = k)) := by
    funext x
    simp [Function.comp, mkTcRow_project]
  rw [hpred]
  have hlen := (hperm.filter (fun x => decide (x = k))).length_eq
  rw [hlen]
  exact length_filter_eq_one _ k (List.nodup_dedup _) hmemU

/-- Witness for C1 (amended) at a concrete input. -/
theorem claim_C1_completeness_amended_witness :
    ∃ t, totalProcessDataOrd ["A"] [⟨["Project$A"], 1⟩] [] = .ok t ∧
      (t.rows.filter (fun r => decide (r.project = "A"))).length = 1 :=
  claim_C1_completeness_amended [⟨["Project$A"], 1⟩] [] ["A"] (by decide) "A"
    (Or.inl ⟨⟨["Project$A"], 1⟩, by decide, by decide⟩)

/-- C1 counterexample: the `merged_df` reconciliation of
`total_costs_report.py` uses `how='left'`, so the project `B`, present only
in the second dataset, yields no output row — the original claim's union
property fails there. -/
theorem claim_C1_counterexample :
    ((mergedRows (fetchReportData [⟨["Project$A"], 5⟩])
        (fetchReportData [⟨["Project$A"], 5⟩, ⟨["Project$B"], 3⟩])).map
      (fun r => r.project) = ["A"]) ∧
    (fetchReportData [⟨["Project$A"], 5⟩, ⟨["Project$B"], 3⟩]).map Prod.fst
      = ["A", "B"] ∧
    "B" ∉ (["A"] : List String) := by
  refine ⟨by decide, by decide, by decide⟩

/-- The data rows of a project sheet are sorted non-increasingly by the
(rounded) current cost. -/
theorem projectSheet_sorted (services : List (String × Cell)) :
    List.Sorted (fun x y : Row => y.current ≤ x.current)
      (projectSheet services).dataRows := by
  have htrans : ∀ (a b c : Row), rowGE a b → rowGE b c → rowGE a c := by
    intro a b c hab hbc
    simp only [rowGE, decide_eq_true_eq] at *
    exact le_trans hbc hab
  have htotal : ∀ (a b : Row), (rowGE a b || rowGE b a) = true := by
    intro a b
    simp only [rowGE, Bool.or_eq_true, decide_eq_true_eq]
    exact le_total b.current a.current
  have h := List.sorted_mergeSort htrans htotal
    (services.map (fun p => mkRow p.1 p.2))
  exact h.imp (fun hab => by simpa [rowGE] using hab)

/-- C4 (amended): `ProjectServiceReport` tables are sorted non-increasingly
by current-period amount with the totals row concatenated last; the
`TotalCostsReport` table is *not* sorted — its data rows simply follow the
iteration order of the key-set union (see the counterexample) — though its
totals row is also last. -/
theorem claim_C4_sort_amended :
    (∀ services : List (String × Cell),
      List.Sorted (fun x y : Row => y.current ≤ x.current)
        (projectSheet services).dataRows ∧
      (sheetTable (projectSheet services)).getLast? =
        some (projectSheet services).totalsRow) ∧
    (∀ (order : List String) (a b : List CostItem) (t : TcTable),
      totalProcessDataOrd order a b = .ok t →
        t.rows.map (fun r => r.project) = order ∧
        (tcTableRows t).getLast? = some t.totals) := by
  constructor
  · intro services
    exact ⟨projectSheet_sorted services, List.getLast?_concat _⟩
  · intro order a b t h
    simp only [totalProcessDataOrd] at h
    by_cases he : (order.map (mkTcRow (costsDict a) (costsDict b))).isEmpty
    · rw [if_pos (by simp [he])] at h
      cases h
    · rw [if_neg (by simp [he])] at h
      injection h with h2
      subst h2
      constructor
      · have hc : ((fun r : TcRow => r.project) ∘
            mkTcRow (costsDict a) (costsDict b)) = id := by
          funext x
          rfl
        rw [List.map_map, hc, List.map_id]
      · exact List.getLast?_concat _

/-- Witness for C4 (amended) at concrete inputs. -/
theorem claim_C4_sort_amended_witness :
    (List.Sorted (fun x y : Row => y.current ≤ x.current)
      (projectSheet [("EC2", ⟨some 1, none⟩)]).dataRows ∧
      (sheetTable (projectSheet [("EC2", ⟨some 1, none⟩)])).getLast? =
        some (projectSheet [("EC2", ⟨some 1, none⟩)]).totalsRow) ∧
    ∃ t, totalProcessDataOrd ["A"] [] [] = .ok t ∧
      t.rows.map (fun r => r.project) = ["A"] :=
  ⟨claim_C4_sort_amended.1 [("EC2", ⟨some 1, none⟩)],
    ⟨_, rfl, (claim_C4_sort_amended.2 ["A"] [] [] _ rfl).1⟩⟩

/-- C4 counterexample: `TotalCostsReport.process_data` performs no sort, so
with the key-union iteration order `["A", "B"]` and current-month amounts
1 and 5 the emitted rows are strictly *increasing* in the current-period
column, refuting the original claim. -/
theorem claim_C4_counterexample :
    ∃ t, totalProcessData
        [⟨["Project$A"], 1⟩, ⟨["Project$B"], 5⟩]
        [⟨["Project$A"], 1⟩, ⟨["Project$B"], 5⟩] = .ok t ∧
      t.rows.map (fun r => (r.project, r.secondCost)) = [("A", 1), ("B", 5)] ∧
      ¬ List.Sorted (fun x y : TcRow => y.secondCost ≤ x.secondCost) t.rows := by
  refine ⟨⟨[⟨"A", round2 1, round2 1, round2 (1 - 1)⟩,
      ⟨"B", round2 5, round2 5, round2 (5 - 5)⟩],
      ⟨"Total", round2 (round2 1 + (round2 5 + 0)),
        round2 (round2 1 + (round2 5 + 0)),
        round2 ((round2 1 + (round2 5 + 0)) - (round2 1 + (round2 5 + 0)))⟩⟩,
    rfl, ?_, ?_⟩
  · simp [round2_one, round2_five]
  · intro hs
    rw [List.sorted_cons] at hs
    have h2 := hs.1 ⟨"B", round2 5, round2 5, round2 (5 - 5)⟩ (by simp)
    simp only [round2_one, round2_five] at h2
    norm_num at h2

/-- C9 (amended): the values of the total-costs table are a function of the
raw inputs alone — any two valid iteration orders of the key-set union give
row lists that are permutations of each other and *identical* totals rows —
but the row *order* follows the (unspecified, per-process) set iteration
order, so byte-identical output across runs is not guaranteed (see the
counterexample). -/
theorem claim_C9_determinism_amended (a b : List CostItem)
    (o₁ o₂ : List String)
    (h₁ : o₁.Perm (unionKeys (costsDict a) (costsDict b)))
    (h₂ : o₂.Perm (unionKeys (costsDict a) (costsDict b))) :
    (∃ t₁ t₂, totalProcessDataOrd o₁ a b = .ok t₁ ∧
      totalProcessDataOrd o₂ a b = .ok t₂ ∧
      t₁.rows.Perm t₂.rows ∧ t₁.totals = t₂.totals) ∨
    (totalProcessDataOrd o₁ a b =
        .error "KeyError: empty DataFrame has no cost columns" ∧
      totalProcessDataOrd o₂ a b =
        .error "KeyError: empty DataFrame has no cost columns") := by
  have hoo : o₁.Perm o₂ := h₁.trans h₂.symm
  by_cases hnil : o₁ = []
  · right
    have hnil₂ : o₂ = [] := (hoo.symm.trans (hnil ▸ List.Perm.refl [])).eq_nil
    subst hnil
    subst hnil₂
    exact ⟨rfl, rfl⟩
  · left
    have hnil₂ : o₂ ≠ [] := fun h => hnil (hoo.trans (h ▸ List.Perm.refl [])).eq_nil
    have hne₁ : (o₁.map (mkTcRow (costsDict a) (costsDict b))).isEmpty = false := by
      cases o₁ with
      | nil => exact absurd rfl hnil
      | cons x t => rfl
    have hne₂ : (o₂.map (mkTcRow (costsDict a) (costsDict b))).isEmpty = false := by
      cases o₂ with
      | nil => exact absurd rfl hnil₂
      | cons x t => rfl
    have hrows : (o₁.map (mkTcRow (costsDict a) (costsDict b))).Perm
        (o₂.map (mkTcRow (costsDict a) (costsDict b))) := hoo.map _
    have hsumS : ((o₁.map (mkTcRow (costsDict a) (costsDict b))).map
        (fun r => r.secondCost)).sum =
        ((o₂.map (mkTcRow (costsDict a) (costsDict b))).map
        (fun r => r.secondCost)).sum := (hrows.map _).sum_eq
    have hsumF : ((o₁.map (mkTcRow (costsDict a) (costsDict b))).map
        (fun r => r.firstCost)).sum =
        ((o₂.map (mkTcRow (costsDict a) (costsDict b))).map
        (fun r => r.firstCost)).sum := (hrows.map _).sum_eq
    refine ⟨⟨o₁.map (mkTcRow (costsDict a) (costsDict b)),
        ⟨"Total",
          round2 ((o₁.map (mkTcRow (costsDict a) (costsDict b))).map
            (fun r => r.secondCost)).sum,
          round2 ((o₁.map (mkTcRow (costsDict a) (costsDict b))).map
            (fun r => r.firstCost)).sum,
          round2 (((o₁.map (mkTcRow (costsDict a) (costsDict b))).map
            (fun r => r.firstCost)).sum -
            ((o₁.map (mkTcRow (costsDict a) (costsDict b))).map
            (fun r => r.secondCost)).sum)⟩⟩,
      ⟨o₂.map (mkTcRow (costsDict a) (costsDict b)),
        ⟨"Total",
          round2 ((o₂.map (mkTcRow (costsDict a) (costsDict b))).map
            (fun r => r.secondCost)).sum,
          round2 ((o₂.map (mkTcRow (costsDict a) (costsDict b))).map
            (fun r => r.firstCost)).sum,
          round2 (((o₂.map (mkTcRow (costsDict a) (costsDict b))).map
            (fun r => r.firstCost)).sum -
            ((o₂.map (mkTcRow (costsDict a) (costsDict b))).map
            (fun r => r.secondCost)).sum)⟩⟩, ?_, ?_, ?_, ?_⟩
    · simp only [totalProcessDataOrd]
      rw [if_neg (by simp [hne₁])]
    · simp only [totalProcessDataOrd]
      rw [if_neg (by simp [hne₂])]
    · exact hrows
    · simp only [TcRow.mk.injEq]
      rw [hsumS, hsumF]
      simp

/-- Witness for C9 (amended) at a concrete input. -/
theorem claim_C9_determinism_amended_witness :
    (∃ t₁ t₂, totalProcessDataOrd ["A"] [⟨["Project$A"], 1⟩] [] = .ok t₁ ∧
      totalProcessDataOrd ["A"] [⟨["Project$A"], 1⟩] [] = .ok t₂ ∧
      t₁.rows.Perm t₂.rows ∧ t₁.totals = t₂.totals) ∨
    (totalProcessDataOrd ["A"] [⟨["Project$A"], 1⟩] [] =
        .error "KeyError: empty DataFrame has no cost columns" ∧
      totalProcessDataOrd ["A"] [⟨["Project$A"], 1⟩] [] =
        .error "KeyError: empty DataFrame has no cost columns") :=
  claim_C9_determinism_amended [⟨["Project$A"], 1⟩] [] ["A"] ["A"]
    (by decide) (by decide)

/-- C9 counterexample: two iteration orders of the same key-set union —
both realizable across runs, since Python string hashing is randomized per
process — produce different row orders, so the pipeline output is not a
function of the raw records and period labels alone. -/
theorem claim_C9_counterexample :
    (["A", "B"] : List String).Perm
      (unionKeys (costsDict [⟨["Project$A"], 1⟩, ⟨["Project$B"], 2⟩])
        (costsDict [])) ∧
    (["B", "A"] : List String).Perm
      (unionKeys (costsDict [⟨["Project$A"], 1⟩, ⟨["Project$B"], 2⟩])
        (costsDict [])) ∧
    (totalProcessDataOrd ["A", "B"] [⟨["Project$A"], 1⟩, ⟨["Project$B"], 2⟩]
        []).toOption.map (fun t => t.rows.map (fun r => r.project))
      = some ["A", "B"] ∧
    (totalProcessDataOrd ["B", "A"] [⟨["Project$A"], 1⟩, ⟨["Project$B"], 2⟩]
        []).toOption.map (fun t => t.rows.map (fun r => r.project))
      = some ["B", "A"] ∧
    (["A", "B"] : List String) ≠ ["B", "A"] := by
  exact ⟨by decide, by decide, by decide, by decide, by decide⟩

/-- A successful lookup exposes a member of the association list. -/
theorem getK_mem {α : Type} (m : List (String × α)) (k : String) (v : α)
    (h : getK m k = some v) : (k, v) ∈ m := by
  unfold getK at h
  cases hf : m.find? (fun p => decide (p.1 = k)) with
  | none => rw [hf] at h; cases h
  | some pr =>
    rw [hf] at h
    have hm := List.mem_of_find?_eq_some hf
    have hp := List.find?_some hf
    simp only [decide_eq_true_eq] at hp
    simp only [Option.map_some'] at h
    have h2 : pr.2 = v := by injection h
    have : pr = (k, v) := Prod.ext hp h2
    exact this ▸ hm

/-- C3 (amended): in `ProjectServiceReport`, a (project, service) key seen
only in the previous period with (last) raw amount `v` reconciles to the
cell `{Previous Cost: v}`; the emitted row zero-fills the current side at
full precision and carries `current = 0`, `previous = round(v, 2)`,
`difference = round(0 - v, 2) = -round(v, 2)`, and that row appears in the
project's sheet.  Symmetrically for a key seen only in the current period.
(The standalone `total_costs_report.py` merge violates the original claim:
a key missing from one side gets NaN, not 0 — see the counterexample.) -/
theorem claim_C3_zero_fill_amended :
    (∀ (cur prev : List CostItem) (p s : String) (v : ℚ),
      (∀ it ∈ cur, ¬(project_tag it.keys = p ∧ service_of it.keys = s)) →
      (prev.reverse.find?
          (fun it => decide (project_tag it.keys = p ∧ service_of it.keys = s))).map
          (fun it => it.amount) = some v →
      getK2 (processData cur prev) p s = some ⟨none, some v⟩ ∧
      mkRow s ⟨none, some v⟩ = ⟨s, 0, round2 v, -(round2 v)⟩ ∧
      (∀ m, getK (processData cur prev) p = some m →
        (⟨s, 0, round2 v, -(round2 v)⟩ : Row) ∈ (projectSheet m).dataRows)) ∧
    (∀ (cur prev : List CostItem) (p s : String) (v : ℚ),
      (∀ it ∈ prev, ¬(project_tag it.keys = p ∧ service_of it.keys = s)) →
      (cur.reverse.find?
          (fun it => decide (project_tag it.keys = p ∧ service_of it.keys = s))).map
          (fun it => it.amount) = some v →
      getK2 (processData cur prev) p s = some ⟨some v, none⟩ ∧
      mkRow s ⟨some v, none⟩ = ⟨s, round2 v, 0, round2 v⟩) := by
  constructor
  · intro cur prev p s v hcur hprev
    have hcell : getK2 (processData cur prev) p s = some ⟨none, some v⟩ := by
      unfold processData
      rw [getK2_foldl_insertPrev]
      have hinner : getK2 (cur.foldl insertCurrent []) p s = none := by
        rw [getK2_foldl_insertCurrent]
        have hfn : cur.reverse.find?
            (fun it => decide (project_tag it.keys = p ∧ service_of it.keys = s))
            = none := by
          rw [List.find?_eq_none]
          intro it hit
          simpa using hcur it (List.mem_reverse.mp hit)
        rw [hfn]
        rfl
      cases hf : prev.reverse.find?
          (fun it => decide (project_tag it.keys = p ∧ service_of it.keys = s)) with
      | none => rw [hf] at hprev; cases hprev
      | some it =>
        rw [hf] at hprev
        simp only [Option.map_some'] at hprev
        injection hprev with hv
        rw [hinner]
        simp [hv]
    have hrow : mkRow s ⟨none, some v⟩ = ⟨s, 0, round2 v, -(round2 v)⟩ := by
      unfold mkRow
      simp only [Option.getD_some, Option.getD_none]
      rw [zero_sub, round2_neg, round2_zero]
    refine ⟨hcell, hrow, ?_⟩
    intro m hm
    have hcs : getK m s = some ⟨none, some v⟩ := by
      unfold getK2 at hcell
      rw [hm] at hcell
      exact hcell
    have hmem : ((s, (⟨none, some v⟩ : Cell)) ∈ m) := getK_mem m s _ hcs
    have hmr : (⟨s, 0, round2 v, -(round2 v)⟩ : Row) ∈
        m.map (fun q => mkRow q.1 q.2) := by
      rw [← hrow]
      exact List.mem_map_of_mem (fun q => mkRow q.1 q.2) hmem
    have hperm := List.mergeSort_perm (m.map (fun q => mkRow q.1 q.2)) rowGE
    exact hperm.mem_iff.mpr hmr
  · intro cur prev p s v hprev hcur
    constructor
    · unfold processData
      rw [getK2_foldl_insertPrev]
      have hfn : prev.reverse.find?
          (fun it => decide (project_tag it.keys = p ∧ service_of it.keys = s))
          = none := by
        rw [List.find?_eq_none]
        intro it hit
        simpa using hprev it (List.mem_reverse.mp hit)
      rw [hfn]
      rw [getK2_foldl_insertCurrent]
      cases hf : cur.reverse.find?
          (fun it => decide (project_tag it.keys = p ∧ service_of it.keys = s)) with
      | none => rw [hf] at hcur; cases hcur
      | some it =>
        rw [hf] at hcur
        simp only [Option.map_some'] at hcur
        injection hcur with hv
        simp [hv]
    · unfold mkRow
      simp only [Option.getD_some, Option.getD_none]
      rw [sub_zero, round2_zero]

/-- Witness for C3 (amended) at concrete inputs. -/
theorem claim_C3_zero_fill_amended_witness :
    (getK2 (processData [] [⟨["Project$P", "EC2"], 7⟩]) "P" "EC2"
        = some ⟨none, some 7⟩ ∧
      mkRow "EC2" ⟨none, some 7⟩ = ⟨"EC2", 0, round2 7, -(round2 7)⟩ ∧
      (∀ m, getK (processData [] [⟨["Project$P", "EC2"], 7⟩]) "P" = some m →
        (⟨"EC2", 0, round2 7, -(round2 7)⟩ : Row) ∈ (projectSheet m).dataRows)) ∧
    (getK2 (processData [⟨["Project$P", "EC2"], 7⟩] []) "P" "EC2"
        = some ⟨some 7, none⟩ ∧
      mkRow "EC2" ⟨some 7, none⟩ = ⟨"EC2", round2 7, 0, round2 7⟩) :=
  ⟨claim_C3_zero_fill_amended.1 [] [⟨["Project$P", "EC2"], 7⟩] "P" "EC2" 7
      (by simp) (by decide),
    claim_C3_zero_fill_amended.2 [⟨["Project$P", "EC2"], 7⟩] [] "P" "EC2" 7
      (by simp) (by decide)⟩

/-- C3 counterexample: in `total_costs_report.py`, the project `A` present
only in the previous month with raw amount 5 gets a merged row whose
current-month cost and difference are NaN (here `none`), not `current = 0.0`
and `difference = -5` as claimed. -/
theorem claim_C3_counterexample :
    (mergedRows (fetchReportData [⟨["Project$A"], 5⟩])
        (fetchReportData [⟨["Project$B"], 3⟩])).map
      (fun r => (r.project, r.secondAmt, r.difference)) = [("A", none, none)] ∧
    (mergedRows (fetchReportData [⟨["Project$A"], 5⟩])
        (fetchReportData [⟨["Project$B"], 3⟩])).map
      (fun r => r.firstAmt) = [round2 5] ∧
    round2 (5 : ℚ) = 5 ∧
    ((none : Option ℚ) ≠ some 0) ∧ ((none : Option ℚ) ≠ some (-5)) := by
  refine ⟨by decide, rfl, round2_five, by decide, by decide⟩

/-- What the totals row of a project sheet actually contains: sums of the
per-row *rounded* columns. -/
theorem projectSheet_totals (services : List (String × Cell)) :
    (projectSheet services).totalsRow.current =
      (services.map (fun q => round2 (q.2.currentCost.getD 0))).sum ∧
    (projectSheet services).totalsRow.previous =
      (services.map (fun q => round2 (q.2.previousCost.getD 0))).sum ∧
    (projectSheet services).totalsRow.difference =
      (projectSheet services).totalsRow.current -
        (projectSheet services).totalsRow.previous := by
  have hc : (((services.map (fun q => mkRow q.1 q.2)).mergeSort rowGE).map
      (fun r : Row => r.current)).sum =
      ((services.map (fun q => round2 (q.2.currentCost.getD 0))).map id).sum := by
    rw [((List.mergeSort_perm (services.map (fun q => mkRow q.1 q.2))
      rowGE).map (fun r : Row => r.current)).sum_eq, List.map_map, List.map_id]
    rfl
  have hp : (((services.map (fun q => mkRow q.1 q.2)).mergeSort rowGE).map
      (fun r : Row => r.previous)).sum =
      ((services.map (fun q => round2 (q.2.previousCost.getD 0))).map id).sum := by
    rw [((List.mergeSort_perm (services.map (fun q => mkRow q.1 q.2))
      rowGE).map (fun r : Row => r.previous)).sum_eq, List.map_map, List.map_id]
    rfl
  rw [List.map_id] at hc hp
  have hcents : ∀ w : List (String × Cell), ∀ g : Cell → ℚ,
      ∃ n : ℤ, (w.map (fun q => round2 (g q.2))).sum = (n : ℚ) / 100 := by
    intro w g
    have := sum_cents (w.map (fun q => round2 (g q.2))) (by
      intro x hx
      obtain ⟨q, _, rfl⟩ := List.mem_map.mp hx
      exact round2_is_cents _)
    exact this
  obtain ⟨nc, hnc⟩ := hcents services (fun c => c.currentCost.getD 0)
  obtain ⟨np, hnp⟩ := hcents services (fun c => c.previousCost.getD 0)
  refine ⟨?_, ?_, ?_⟩
  · show round2 (((services.map (fun q => mkRow q.1 q.2)).mergeSort rowGE).map
        (fun r : Row => r.current)).sum = _
    rw [hc, hnc, round2_cents]
  · show round2 (((services.map (fun q => mkRow q.1 q.2)).mergeSort rowGE).map
        (fun r : Row => r.previous)).sum = _
    rw [hp, hnp, round2_cents]
  · show round2 ((((services.map (fun q => mkRow q.1 q.2)).mergeSort rowGE).map
        (fun r : Row => r.current)).sum -
        (((services.map (fun q => mkRow q.1 q.2)).mergeSort rowGE).map
        (fun r : Row => r.previous)).sum) = _
    rw [hc, hp, hnc, hnp]
    rw [show (nc : ℚ) / 100 - (np : ℚ) / 100 = ((nc - np : ℤ) : ℚ) / 100 by
      push_cast; ring, round2_cents]
    show ((nc - np : ℤ) : ℚ) / 100 = round2 _ - round2 _
    rw [hc, hp, hnc, hnp, round2_cents, round2_cents]
    push_cast
    ring

/-- C2 (amended): the totals row of every reconciled table is computed from
the per-row *rounded* values — `TotalsRow.current` is the sum of the rounded
current amounts (not `round(sum of raw amounts, 2)`), likewise for previous,
and the difference is exactly `TotalsRow.current - TotalsRow.previous`.  The
original full-precision claim fails, see the counterexample. -/
theorem claim_C2_totals_amended (services : List (String × Cell)) :
    (projectSheet services).totalsRow.current =
      (services.map (fun q => round2 (q.2.currentCost.getD 0))).sum ∧
    (projectSheet services).totalsRow.previous =
      (services.map (fun q => round2 (q.2.previousCost.getD 0))).sum ∧
    (projectSheet services).totalsRow.difference =
      (projectSheet services).totalsRow.current -
        (projectSheet services).totalsRow.previous :=
  projectSheet_totals services

/-- C2 counterexample: two services with raw current amounts 1.004 each.
The emitted totals-row current is `round(1.004,2) + round(1.004,2) = 2.0`,
while the claimed `round(sum of raw amounts, 2) = round(2.008, 2) = 2.01`. -/
theorem claim_C2_counterexample :
    (projectSheet [("EC2", ⟨some 1.004, some 0⟩),
        ("S3", ⟨some 1.004, some 0⟩)]).totalsRow.current = 2 ∧
    round2 (1.004 + 1.004) = 2.01 ∧ ((2 : ℚ) ≠ 2.01) := by
  have h1 : round2 (1.004 : ℚ) = 1 := by
    rw [round2_eq_lo (1.004 : ℚ) 100 (by norm_num) (by norm_num)]
    norm_num
  refine ⟨?_, ?_, by norm_num⟩
  · have h := (projectSheet_totals [("EC2", ⟨some 1.004, some 0⟩),
      ("S3", ⟨some 1.004, some 0⟩)]).1
    rw [h]
    simp [h1]
    norm_num
  · rw [show (1.004 + 1.004 : ℚ) = 2.008 by norm_num,
      round2_eq_hi (2.008 : ℚ) 200 (by norm_num) (by norm_num)]
    norm_num

/-- `float(...)` conversion succeeds on a record list iff every amount
parses; success case. -/
theorem mapM_parseItem_ok (l : List RawItem)
    (h : ∀ it ∈ l, (pyFloat? it.amountStr).isSome) :
    ∃ l', l.mapM parseItem = Except.ok l' := by
  induction l with
  | nil => exact ⟨[], rfl⟩
  | cons a t ih =>
    obtain ⟨q, hq⟩ : ∃ q, pyFloat? a.amountStr = some q := by
      have ha := h a (List.mem_cons_self a t)
      cases hpq : pyFloat? a.amountStr with
      | some q => exact ⟨q, rfl⟩
      | none => rw [hpq] at ha; cases ha
    obtain ⟨l', hl'⟩ := ih (fun it hit => h it (List.mem_cons_of_mem a hit))
    refine ⟨⟨a.keys, q⟩ :: l', ?_⟩
    rw [List.mapM_cons, show parseItem a = .ok ⟨a.keys, q⟩ from by
      unfold parseItem; rw [hq], hl']
    rfl

/-- `float(...)` conversion: failure case — some amount fails to parse. -/
theorem mapM_parseItem_err (l : List RawItem)
    (h : ∃ it ∈ l, pyFloat? it.amountStr = none) :
    ∃ e, l.mapM parseItem = Except.error e := by
  induction l with
  | nil =>
    obtain ⟨it, hit, _⟩ := h
    cases hit
  | cons a t ih =>
    cases hpa : pyFloat? a.amountStr with
    | none =>
      refine ⟨"ValueError: could not convert string to float: " ++ a.amountStr, ?_⟩
      rw [List.mapM_cons, show parseItem a = .error
        ("ValueError: could not convert string to float: " ++ a.amountStr) from by
        unfold parseItem; rw [hpa]]
      rfl
    | some q =>
      obtain ⟨it, hit, hnone⟩ := h
      have hit' : it ∈ t := by
        rcases List.mem_cons.mp hit with rfl | h2
        · rw [hpa] at hnone; cases hnone
        · exact h2
      obtain ⟨e, he⟩ := ih ⟨it, hit', hnone⟩
      refine ⟨e, ?_⟩
      rw [List.mapM_cons, show parseItem a = .ok ⟨a.keys, q⟩ from by
        unfold parseItem; rw [hpa], he]
      rfl

/-- C7: if any raw record's amount string fails to parse as a float,
`ProjectServiceReport.process_data` on raw records fails the run with a
`ValueError` instead of coercing the amount to zero; conversely, if every
amount parses, reconciliation succeeds. -/
theorem claim_C7_malformed_amount (cur prev : List RawItem) :
    ((∃ it ∈ cur ++ prev, pyFloat? it.amountStr = none) →
      ∃ e, processDataChecked cur prev = .error e) ∧
    ((∀ it ∈ cur ++ prev, (pyFloat? it.amountStr).isSome) →
      ∃ r, processDataChecked cur prev = .ok r) := by
  constructor
  · intro h
    obtain ⟨it, hit, hnone⟩ := h
    rcases List.mem_append.mp hit with hc | hp
    · obtain ⟨e, he⟩ := mapM_parseItem_err cur ⟨it, hc, hnone⟩
      exact ⟨e, by unfold processDataChecked; rw [he]; rfl⟩
    · cases hmc : cur.mapM parseItem with
      | error e => exact ⟨e, by unfold processDataChecked; rw [hmc]; rfl⟩
      | ok c =>
        obtain ⟨e, he⟩ := mapM_parseItem_err prev ⟨it, hp, hnone⟩
        exact ⟨e, by unfold processDataChecked; rw [hmc, he]; rfl⟩
  · intro h
    obtain ⟨c, hc⟩ := mapM_parseItem_ok cur
      (fun it hit => h it (List.mem_append.mpr (Or.inl hit)))
    obtain ⟨p, hp⟩ := mapM_parseItem_ok prev
      (fun it hit => h it (List.mem_append.mpr (Or.inr hit)))
    exact ⟨processData c p, by unfold processDataChecked; rw [hc, hp]; rfl⟩

/-- Witness for C7 at concrete inputs: `"12.5oops"` is rejected with an
error, `"12.5"` parses and the run succeeds. -/
theorem claim_C7_malformed_amount_witness :
    (∃ e, processDataChecked [⟨["Project$X", "EC2"], "12.5oops"⟩] []
      = .error e) ∧
    (∃ r, processDataChecked [⟨["Project$X", "EC2"], "12.5"⟩] [] = .ok r) :=
  ⟨(claim_C7_malformed_amount [⟨["Project$X", "EC2"], "12.5oops"⟩] []).1
      ⟨⟨["Project$X", "EC2"], "12.5oops"⟩, by simp, by decide⟩,
    (claim_C7_malformed_amount [⟨["Project$X", "EC2"], "12.5"⟩] []).2
      (by decide)⟩

theorem splitD_ne_nil (l : List Char) : splitD l ≠ [] := by
  induction l with
  | nil => simp [splitD]
  | cons c cs ih =>
    unfold splitD
    by_cases h : c = '$'
    · simp [h]
    · rw [if_neg h]
      cases hcs : splitD cs with
      | nil => simp
      | cons p ps => simp

/-- The first field of a `'$'`-split is the prefix up to the first `'$'`. -/
theorem splitD_head (l : List Char) :
    (splitD l).head? = some (l.takeWhile (fun c => !decide (c = '$'))) := by
  induction l with
  | nil => rfl
  | cons c cs ih =>
    unfold splitD
    by_cases h : c = '$'
    · simp [h, List.takeWhile_cons]
    · rw [if_neg h]
      cases hcs : splitD cs with
      | nil => exact absurd hcs (splitD_ne_nil cs)
      | cons p ps =>
        rw [hcs] at ih
        simp only [List.head?_cons] at ih
        injection ih with hp
        simp [List.takeWhile_cons, h, hp]

/-- Splitting at the first `'$'`: `split` of `l₁ ++ '$' :: l₂` with `l₁`
free of `'$'` yields `l₁` followed by the split of `l₂`. -/
theorem splitD_append (l₁ l₂ : List Char) (h : '$' ∉ l₁) :
    splitD (l₁ ++ '$' :: l₂) = l₁ :: splitD l₂ := by
  induction l₁ with
  | nil => simp [splitD]
  | cons c cs ih =>
    have hc : ¬(c = '$') := fun hh => h (by rw [hh]; exact List.mem_cons_self _ _)
    rw [List.cons_append]
    conv_lhs => rw [splitD]
    rw [if_neg hc]
    rw [ih (fun hm => h (List.mem_cons_of_mem c hm))]

/-- C8 (amended): the Key Normalizer returns, for the first component of
the form `"Project$" ++ v`, the part of `v` *before its first `'$'`* (the
second field of the `'$'`-split) — the full suffix after the delimiter only
when `v` itself contains no `'$'` (see the counterexample); the fallbacks
"No Project Tag" / "No Service" and the first-non-matching-component
service rule hold as stated. -/
theorem claim_C8_key_normalizer_amended :
    (∀ (keys : List String) (v : List Char),
      keys.find? (fun x => pyStarts x "Project$") = some ⟨"Project$".data ++ v⟩ →
      project_tag keys = ⟨v.takeWhile (fun c => !decide (c = '$'))⟩) ∧
    (∀ keys : List String, (∀ x ∈ keys, ¬ pyStarts x "Project$") →
      project_tag keys = "No Project Tag") ∧
    (∀ (keys : List String) (s : String),
      keys.find? (fun x => !(pyStarts x "Project$")) = some s →
      service_of keys = s) ∧
    (∀ keys : List String, (∀ x ∈ keys, pyStarts x "Project$") →
      service_of keys = "No Service") := by
  refine ⟨?_, ?_, ?_, ?_⟩
  · intro keys v hf
    unfold project_tag
    rw [hf]
    unfold pySplit
    show ((splitD ("Project$".data ++ v)).map String.mk).getD 1 "" = _
    rw [show "Project$".data ++ v = "Project".data ++ '$' :: v by
      rw [show "Project$".data = "Project".data ++ ['$'] from by decide,
        List.append_assoc]
      rfl]
    rw [splitD_append "Project".data v (by decide)]
    simp only [List.map_cons]
    rw [List.getD_cons_succ]
    have hh := splitD_head v
    cases hsv : splitD v with
    | nil => exact absurd hsv (splitD_ne_nil v)
    | cons p ps =>
      rw [hsv] at hh
      simp only [List.head?_cons] at hh
      injection hh with hp
      simp [hp]
  · intro keys h
    unfold project_tag
    rw [List.find?_eq_none.mpr (by intro x hx; simpa using h x hx)]
  · intro keys s hf
    unfold service_of
    rw [hf]
    rfl
  · intro keys h
    unfold service_of
    rw [List.find?_eq_none.mpr (by intro x hx; simp [h x hx])]
    rfl

/-- Witness for C8 (amended) at concrete inputs. -/
theorem claim_C8_key_normalizer_amended_witness :
    project_tag ["Project$alpha"]
      = ⟨("alpha".data).takeWhile (fun c => !decide (c = '$'))⟩ ∧
    project_tag ["EC2"] = "No Project Tag" ∧
    service_of ["Project$alpha", "EC2"] = "EC2" ∧
    service_of ["Project$alpha"] = "No Service" :=
  ⟨claim_C8_key_normalizer_amended.1 ["Project$alpha"] "alpha".data (by decide),
    claim_C8_key_normalizer_amended.2.1 ["EC2"] (by decide),
    claim_C8_key_normalizer_amended.2.2.1 ["Project$alpha", "EC2"] "EC2"
      (by decide),
    claim_C8_key_normalizer_amended.2.2.2 ["Project$alpha"] (by decide)⟩

/-- C8 counterexample: a project value containing the delimiter is
truncated at its first `'$'` — `["Project$a$b"]` normalizes to `"a"`, not
the claimed full substring `"a$b"` after the first delimiter. -/
theorem claim_C8_counterexample :
    project_tag ["Project$a$b"] = "a" ∧ ("a" : String) ≠ "a$b" :=
  ⟨by decide, by decide⟩

theorem digitChar_toLower (n : ℕ) : (digitChar n).toLower = digitChar n := by
  rcases n with _ | _ | _ | _ | _ | _ | _ | _ | _ | m
  · decide
  · decide
  · decide
  · decide
  · decide
  · decide
  · decide
  · decide
  · decide
  · show ('9' : Char).toLower = '9'
    decide

theorem digitChar_inj (a b : ℕ) (ha : a < 10) (hb : b < 10)
    (h : digitChar a = digitChar b) : a = b := by
  have key : ∀ x y : Fin 10, digitChar x = digitChar y → x = y := by decide
  exact congrArg Fin.val (key ⟨a, ha⟩ ⟨b, hb⟩ h)

theorem natChars_toLower (n : ℕ) : (natChars n).map Char.toLower = natChars n := by
  induction n using Nat.strong_induction_on with
  | _ n ih =>
    unfold natChars
    by_cases h : n < 10
    · rw [dif_pos h]
      simp [digitChar_toLower]
    · rw [dif_neg h, List.map_append,
        ih (n / 10) (Nat.div_lt_self (by omega) (by omega))]
      simp [digitChar_toLower]

theorem natChars_ne_nil (n : ℕ) : natChars n ≠ [] := by
  unfold natChars
  by_cases h : n < 10
  · rw [dif_pos h]
    simp
  · rw [dif_neg h]
    simp

theorem natChars_inj : ∀ a : ℕ, ∀ b : ℕ, natChars a = natChars b → a = b := by
  intro a
  induction a using Nat.strong_induction_on with
  | _ a ih =>
    intro b h
    by_cases ha : a < 10 <;> by_cases hb : b < 10
    · unfold natChars at h
      rw [dif_pos ha, dif_pos hb] at h
      injection h with h1
      exact digitChar_inj a b ha hb h1
    · unfold natChars at h
      rw [dif_pos ha, dif_neg hb] at h
      have hlen := congrArg List.length h
      have hpos := List.length_pos.mpr (natChars_ne_nil (b / 10))
      simp only [List.length_cons, List.length_nil, List.length_append] at hlen
      omega
    · unfold natChars at h
      rw [dif_neg ha, dif_pos hb] at h
      have hlen := congrArg List.length h
      have hpos := List.length_pos.mpr (natChars_ne_nil (a / 10))
      simp only [List.length_cons, List.length_nil, List.length_append] at hlen
      omega
    · unfold natChars at h
      rw [dif_neg ha, dif_neg hb] at h
      obtain ⟨h1, h2⟩ := List.append_inj' h (by simp)
      have hd : a % 10 = b % 10 := by
        injection h2 with h3
        exact digitChar_inj _ _ (Nat.mod_lt _ (by omega)) (Nat.mod_lt _ (by omega)) h3
      have hq : a / 10 = b / 10 :=
        ih (a / 10) (Nat.div_lt_self (by omega) (by omega)) (b / 10) h1
      omega

theorem pyLower_candName (base : String) (c : ℕ) :
    pyLower (candName base c) = ⟨(pyLower base).data ++ '_' :: natChars c⟩ := by
  unfold pyLower candName
  show String.mk ((base.data ++ '_' :: natChars c).map Char.toLower) = _
  rw [List.map_append, List.map_cons, natChars_toLower,
    show '_'.toLower = '_' from by decide]

theorem candName_lower_inj (base : String) (c₁ c₂ : ℕ)
    (h : pyLower (candName base c₁) = pyLower (candName base c₂)) : c₁ = c₂ := by
  rw [pyLower_candName, pyLower_candName] at h
  have hd : (pyLower base).data ++ '_' :: natChars c₁ =
      (pyLower base).data ++ '_' :: natChars c₂ := congrArg String.data h
  have h2 := List.append_cancel_left hd
  injection h2 with _ h3
  exact natChars_inj _ _ h3

theorem isTaken_iff (nm : String) (used : List String) :
    isTaken nm used = true ↔ pyLower nm ∈ used.map pyLower := by
  unfold isTaken
  exact List.elem_iff

/-- Full characterization of the fuelled `while` loop: provided some
candidate in the scanned range is free, the loop stops at the *first* free
suffix. -/
theorem findFree_spec (base : String) (used : List String) :
    ∀ (fuel c : ℕ),
    (∃ i ∈ List.range' c fuel, isTaken (candName base i) used = false) →
    ∃ k, c ≤ k ∧ isTaken (candName base k) used = false ∧
      (∀ j, c ≤ j → j < k → isTaken (candName base j) used = true) ∧
      findFree base used fuel c = candName base k := by
  intro fuel
  induction fuel with
  | zero =>
    intro c h
    obtain ⟨i, hi, _⟩ := h
    simp [List.range'] at hi
  | succ f ih =>
    intro c h
    by_cases hc : isTaken (candName base c) used = true
    · have hex : ∃ i ∈ List.range' (c + 1) f,
          isTaken (candName base i) used = false := by
        obtain ⟨i, hi, hfree⟩ := h
        rw [List.range'_succ] at hi
        rcases List.mem_cons.mp hi with rfl | hi'
        · simp [hc] at hfree
        · exact ⟨i, hi', hfree⟩
      obtain ⟨k, hk1, hk2, hk3, hk4⟩ := ih (c + 1) hex
      refine ⟨k, by omega, hk2, ?_, ?_⟩
      · intro j hj1 hj2
        by_cases hjc : j = c
        · rw [hjc]
          exact hc
        · exact hk3 j (by omega) hj2
      · unfold findFree
        rw [if_pos hc]
        exact hk4
    · have hc' : isTaken (candName base c) used = false := by
        cases hb : isTaken (candName base c) used
        · rfl
        · exact absurd hb hc
      refine ⟨c, le_refl c, hc', ?_, ?_⟩
      · intro j hj1 hj2
        omega
      · unfold findFree
        rw [if_neg hc]

/-- Pigeonhole: among `used.length + 1` candidate suffixes, at least one is
case-insensitively unused. -/
theorem exists_free (base : String) (used : List String) :
    ∃ i ∈ List.range' 1 (used.length + 1),
      isTaken (candName base i) used = false := by
  by_contra hall
  push_neg at hall
  have hsub : (List.range' 1 (used.length + 1)).map
      (fun i => pyLower (candName base i)) ⊆ used.map pyLower := by
    intro x hx
    obtain ⟨i, hi, rfl⟩ := List.mem_map.mp hx
    have hne := hall i hi
    have htrue : isTaken (candName base i) used = true := by
      cases hbi : isTaken (candName base i) used
      · exact absurd hbi hne
      · rfl
    exact (isTaken_iff _ _).mp htrue
  have hnd : ((List.range' 1 (used.length + 1)).map
      (fun i => pyLower (candName base i))).Nodup :=
    (List.nodup_range' 1 (used.length + 1)).map
      (fun c₁ c₂ h => candName_lower_inj base c₁ c₂ h)
  have hle := (hnd.subperm hsub).length_le
  simp at hle

/-- The sheet-name generator never returns a case-insensitively used name,
returns the base name when it is free, and otherwise the first free numeric
suffix. -/
theorem gusn_spec (project : String) (used : List String) :
    isTaken (get_unique_sheet_name project used) used = false ∧
    (isTaken (baseNameOf project) used = false →
      get_unique_sheet_name project used = baseNameOf project) ∧
    (isTaken (baseNameOf project) used = true →
      ∃ k, 1 ≤ k ∧
        get_unique_sheet_name project used = candName (baseNameOf project) k ∧
        isTaken (candName (baseNameOf project) k) used = false ∧
        ∀ j, 1 ≤ j → j < k →
          isTaken (candName (baseNameOf project) j) used = true) := by
  simp only [get_unique_sheet_name]
  by_cases hb : isTaken (baseNameOf project) used = true
  · rw [if_pos hb]
    obtain ⟨k, hk1, hk2, hk3, hk4⟩ := findFree_spec (baseNameOf project) used
      (used.length + 1) 1 (exists_free (baseNameOf project) used)
    rw [hk4]
    refine ⟨hk2, ?_, fun _ => ⟨k, hk1, rfl, hk2, hk3⟩⟩
    intro hcontra
    rw [hb] at hcontra
    cases hcontra
  · rw [if_neg hb]
    have hb' : isTaken (baseNameOf project) used = false := by
      cases hx : isTaken (baseNameOf project) used
      · rfl
      · exact absurd hx hb
    exact ⟨hb', fun _ => rfl, fun hcontra => absurd hcontra hb⟩

/-- The sheet-building loop hands out names disjoint from the running used
set, and pairwise case-insensitively distinct. -/
theorem buildSheets_names (pc : List (String × List (String × Cell))) :
    ∀ used : List String,
      (∀ e ∈ buildSheets pc used, pyLower e.1 ∉ used.map pyLower) ∧
      ((buildSheets pc used).map (fun x => pyLower x.1)).Nodup := by
  induction pc with
  | nil =>
    intro used
    simp [buildSheets]
  | cons hd rest ih =>
    intro used
    obtain ⟨p, svcs⟩ := hd
    simp only [buildSheets]
    constructor
    · intro e he
      rcases List.mem_cons.mp he with rfl | he'
      · intro hmem
        have h1 := (gusn_spec p used).1
        have h2 := (isTaken_iff (get_unique_sheet_name p used) used).mpr hmem
        rw [h1] at h2
        cases h2
      · intro hmem
        have h3 := (ih (get_unique_sheet_name p used :: used)).1 e he'
        exact h3 (by
          rw [List.map_cons]
          exact List.mem_cons_of_mem _ hmem)
    · rw [List.map_cons, List.nodup_cons]
      constructor
      · intro hmem
        obtain ⟨e, he, heq⟩ := List.mem_map.mp hmem
        have h3 := (ih (get_unique_sheet_name p used :: used)).1 e he
        apply h3
        rw [List.map_cons, heq]
        exact List.mem_cons_self _ _
      · exact (ih (get_unique_sheet_name p used :: used)).2

/-- C6 (amended): the sheet-name generator returns a name that is
case-insensitively distinct from every already-used name; for a *non-blank*
project whose 28-character truncation is free it returns exactly that
truncation (a blank/whitespace-only project instead uses the base
`'Unnamed_Project'` — the original claim's "truncation" clause fails there,
see the counterexample); when the base name is taken, the result is the
base with the *first* free numeric suffix `_k`.  Consequently the sheet
loop gives N colliding groups N case-insensitively distinct names. -/
theorem claim_C6_sheet_names_amended :
    (∀ (project : String) (used : List String),
      pyLower (get_unique_sheet_name project used) ∉ used.map pyLower ∧
      (pyBlank project = false → isTaken (pyTake project 28) used = false →
        get_unique_sheet_name project used = pyTake project 28) ∧
      (isTaken (baseNameOf project) used = true →
        ∃ k, 1 ≤ k ∧
          get_unique_sheet_name project used = candName (baseNameOf project) k ∧
          isTaken (candName (baseNameOf project) k) used = false ∧
          ∀ j, 1 ≤ j → j < k →
            isTaken (candName (baseNameOf project) j) used = true)) ∧
    (∀ pc : List (String × List (String × Cell)),
      ((buildSheets pc []).map (fun x => pyLower x.1)).Nodup) := by
  constructor
  · intro project used
    refine ⟨?_, ?_, (gusn_spec project used).2.2⟩
    · intro hmem
      have h1 := (gusn_spec project used).1
      have h2 := (isTaken_iff (get_unique_sheet_name project used) used).mpr hmem
      rw [h1] at h2
      cases h2
    · intro hbl htk
      have hbase : baseNameOf project = pyTake project 28 := by
        unfold baseNameOf
        rw [hbl]
        rfl
      have h4 := (gusn_spec project used).2.1 (by rw [hbase]; exact htk)
      rw [h4, hbase]
  · intro pc
    exact (buildSheets_names pc []).2

/-- Witness for C6 (amended) at concrete inputs: `"Analytics"` collides
case-insensitively with `"analytics"` and gets a distinct name; `"Report"`
with no used names keeps its truncation. -/
theorem claim_C6_sheet_names_amended_witness :
    pyLower (get_unique_sheet_name "Analytics" ["analytics"]) ∉
      (["analytics"].map pyLower) ∧
    get_unique_sheet_name "Report" [] = pyTake "Report" 28 :=
  ⟨(claim_C6_sheet_names_amended.1 "Analytics" ["analytics"]).1,
    (claim_C6_sheet_names_amended.1 "Report" []).2.1 (by decide) (by decide)⟩

/-- C6 counterexample: a whitespace-only project name whose truncation is
free nevertheless does not receive that truncation — the generator
substitutes `'Unnamed_Project'`. -/
theorem claim_C6_counterexample :
    get_unique_sheet_name " " [] = "Unnamed_Project" ∧
    isTaken (pyTake " " 28) [] = false ∧
    get_unique_sheet_name " " [] ≠ pyTake " " 28 :=
  ⟨by decide, by decide, by decide⟩

end AwsReport
